import Mathlib

/-!
# Verification of the pastiera dictionary-build scripts

Shallow embedding of the five Python scripts under `scripts/`:

* `build_symspell_dict.py`   — namespace `BuildSym`
* `backup_truncate_and_convert.py` — namespace `BackupConvert`
* `preprocess_dictionaries.py` — namespace `Preprocess`
* `truncate_dict.py`         — namespace `TruncateDict`
* `convert_all_to_symspell.py` — namespace `ConvertAll`

Conventions: a Python `str` is modelled as `List Char`; a Python `dict`
(which preserves key-insertion order) is modelled as an association list
`List (key × value)` whose `lookup` returns the first binding; a Python
`set` is modelled as a duplicate-free list where only membership is
relied upon.  Python `int` is modelled as `Int` (`Nat` for the
non-negative configuration knobs `max_words`, `max_edit_distance`,
`prefix_length`).  The `unicodedata` module and `str.lower` are external
collaborators: they are modelled by the abstract structure `Uni` below,
constrained only by the fact that `unicodedata.category` always returns
one of the thirty two-letter Unicode general-category codes.
-/

set_option linter.unusedVariables false

open List

/-- The thirty two-letter Unicode general category codes that
`unicodedata.category` can return, each as a `List Char` (our model of a
Python string). -/
def validCats : List (List Char) :=
  [['L','u'], ['L','l'], ['L','t'], ['L','m'], ['L','o'],
   ['M','n'], ['M','c'], ['M','e'],
   ['N','d'], ['N','l'], ['N','o'],
   ['P','c'], ['P','d'], ['P','s'], ['P','e'], ['P','i'], ['P','f'], ['P','o'],
   ['S','m'], ['S','c'], ['S','k'], ['S','o'],
   ['Z','s'], ['Z','l'], ['Z','p'],
   ['C','c'], ['C','f'], ['C','s'], ['C','o'], ['C','n']]

/-- Model of the external Unicode primitives used by the scripts:
`str.lower`, `unicodedata.normalize("NFD", ·)` and
`unicodedata.category`.  `cat_valid` records the one fact the proofs
need about the real `unicodedata.category`: it only returns the thirty
standard two-letter category codes. -/
structure Uni where
  lower : List Char → List Char
  nfd : List Char → List Char
  cat : Char → List Char
  cat_valid : ∀ c, cat c ∈ validCats

namespace BuildSym

/-- `normalize` from `build_symspell_dict.py` (lines 25-33): lowercase,
NFD-decompose, remove combining marks (category `Mn`), keep only
letters (category starting with `L`).  The `locale` argument is
accepted and unused, exactly as in the source. -/
def normalize (U : Uni) (word : List Char) (locale : List Char) : List Char :=
  let w1 := U.lower word
  let w2 := U.nfd w1
  let w3 := w2.filter (fun ch => U.cat ch != ['M','n'])
  w3.filter (fun ch => ['L'].isPrefixOf (U.cat ch))

end BuildSym

namespace BackupConvert

/-- `normalize` from `backup_truncate_and_convert.py` (lines 24-30);
its body is token-for-token the same as the one in
`build_symspell_dict.py`. -/
def normalize (U : Uni) (word : List Char) (locale : List Char) : List Char :=
  let w1 := U.lower word
  let w2 := U.nfd w1
  let w3 := w2.filter (fun ch => U.cat ch != ['M','n'])
  w3.filter (fun ch => ['L'].isPrefixOf (U.cat ch))

end BackupConvert

namespace Preprocess

/-- `normalize` from `preprocess_dictionaries.py` (lines 14-32):
lowercase, NFD-decompose, keep only the categories
`Ll, Lu, Lt, Lo, Lm, Mn`, then drop `Mn` in a second pass. -/
def normalize (U : Uni) (word : List Char) (locale : List Char) : List Char :=
  let word_lower := U.lower word
  let normalized := U.nfd word_lower
  let only_letters := normalized.filter (fun c =>
    U.cat c == ['L','l'] || U.cat c == ['L','u'] || U.cat c == ['L','t'] ||
    U.cat c == ['L','o'] || U.cat c == ['L','m'] || U.cat c == ['M','n'])
  let without_accents := only_letters.filter (fun c => U.cat c != ['M','n'])
  without_accents

end Preprocess

/-- The specification's reference normalizer, written from the spec's
words (§4.1): "lowercase; canonical decomposition; drop all
combining-mark characters; retain only characters classified as letters
(any script)". -/
def specNormalize (U : Uni) (word : List Char) : List Char :=
  (((U.nfd (U.lower word)).filter (fun ch => U.cat ch != ['M','n'])).filter
    (fun ch => ['L'].isPrefixOf (U.cat ch)))

/-- For any valid category code, the two filtering disciplines used by
the scripts agree pointwise. -/
lemma cat_filter_agree : ∀ s ∈ validCats,
    ((s == (['L','l'] : List Char) || s == ['L','u'] || s == ['L','t'] ||
      s == ['L','o'] || s == ['L','m'] || s == ['M','n']) && (s != ['M','n']))
    = ((s != ['M','n']) && ['L'].isPrefixOf s) := by
  decide

lemma filter_filter_comm {α : Type} (p q : α → Bool) (l : List α) :
    (l.filter q).filter p = l.filter (fun a => q a && p a) := by
  induction l with
  | nil => rfl
  | cons a l ih =>
    by_cases hq : q a <;> by_cases hp : p a <;>
      simp [List.filter_cons, hq, hp, ih]

lemma preprocess_eq_buildsym (U : Uni) (word locale : List Char) :
    Preprocess.normalize U word locale = BuildSym.normalize U word locale := by
  unfold Preprocess.normalize BuildSym.normalize
  dsimp only
  rw [filter_filter_comm, filter_filter_comm]
  apply List.filter_congr
  intro c _
  exact cat_filter_agree (U.cat c) (U.cat_valid c)

/-- A concrete instance of `Uni` sufficient for the Italian test
vectors: ASCII letters and digits, the precomposed vowels à è é ì ò ù
with their NFD decompositions, and the combining grave/acute accents
(U+0300, U+0301). -/
def itLower (s : List Char) : List Char :=
  s.map (fun c => if 'A' ≤ c ∧ c ≤ 'Z' then Char.ofNat (c.toNat + 32) else c)

def itNFD (s : List Char) : List Char :=
  s.flatMap (fun c =>
    if c = 'à' then ['a', Char.ofNat 0x300]
    else if c = 'è' then ['e', Char.ofNat 0x300]
    else if c = 'é' then ['e', Char.ofNat 0x301]
    else if c = 'ì' then ['i', Char.ofNat 0x300]
    else if c = 'ò' then ['o', Char.ofNat 0x300]
    else if c = 'ù' then ['u', Char.ofNat 0x300]
    else [c])

def itCat (c : Char) : List Char :=
  if c = Char.ofNat 0x300 ∨ c = Char.ofNat 0x301 then ['M','n']
  else if 'A' ≤ c ∧ c ≤ 'Z' then ['L','u']
  else if ('a' ≤ c ∧ c ≤ 'z') ∨ c = 'à' ∨ c = 'è' ∨ c = 'é' ∨ c = 'ì' ∨ c = 'ò' ∨ c = 'ù' then ['L','l']
  else if '0' ≤ c ∧ c ≤ '9' then ['N','d']
  else ['C','n']

lemma itCat_valid : ∀ c, itCat c ∈ validCats := by
  intro c
  unfold itCat
  split_ifs <;> simp [validCats]

def uniIT : Uni := ⟨itLower, itNFD, itCat, itCat_valid⟩

/-- C8: the three `normalize` implementations compute the same pure
function; the `locale` argument has no effect; the shared function is
the spec's reference normalizer; and on the concrete Unicode model the
spec's test vectors hold ("città" ↦ "citta", "123" ↦ "", case-fold
invariance on "Mario"/"mario"/"MARIO"). -/
theorem claim_C8_normalize_consistent :
    (∀ (U : Uni) (w l1 l2 : List Char),
        BuildSym.normalize U w l1 = BuildSym.normalize U w l2) ∧
    (∀ (U : Uni) (w l : List Char),
        BackupConvert.normalize U w l = BuildSym.normalize U w l) ∧
    (∀ (U : Uni) (w l : List Char),
        Preprocess.normalize U w l = BuildSym.normalize U w l) ∧
    (∀ (U : Uni) (w l : List Char),
        BuildSym.normalize U w l = specNormalize U w) ∧
    BuildSym.normalize uniIT "città".toList "it".toList = "citta".toList ∧
    BuildSym.normalize uniIT "123".toList "it".toList = [] ∧
    (BuildSym.normalize uniIT "Mario".toList "it".toList =
      BuildSym.normalize uniIT "mario".toList "it".toList ∧
     BuildSym.normalize uniIT "MARIO".toList "it".toList =
      BuildSym.normalize uniIT "mario".toList "it".toList) := by
  refine ⟨fun U w l1 l2 => rfl, fun U w l => rfl, preprocess_eq_buildsym,
    fun U w l => rfl, ?_, ?_, ?_, ?_⟩ <;> decide

/-! ## Delete-variant generation (`generate_deletes`)

`generate_deletes` appears, token-for-token identical, in
`build_symspell_dict.py` (lines 36-49) and
`backup_truncate_and_convert.py` (lines 33-47). -/

/-- Python's `current[:i] + current[i+1:]`: the string with the
character at position `i` removed. -/
def strDelete (current : List Char) (i : Nat) : List Char :=
  current.take i ++ current.drop (i + 1)

namespace BuildSym

/-- The inner `recurse` closure of `generate_deletes`, with the mutated
`deletes` set threaded explicitly (modelled as a duplicate-free list).
At depth `d+1` it iterates `i` over `range(len(current))`; each new
variant is added to the shared set before recursing with `d-1`. -/
def recurse (d : Nat) : List Char → List (List Char) → List (List Char) :=
  match d with
  | 0 => fun _current dl => dl
  | d' + 1 => fun current dl =>
      (List.range current.length).foldl (fun dl i =>
        let deleted := strDelete current i
        if deleted ∈ dl then dl else recurse d' deleted (deleted :: dl)) dl

/-- `generate_deletes(term, max_distance)` from
`build_symspell_dict.py` (lines 36-49). -/
def generate_deletes (term : List Char) (max_distance : Nat) : List (List Char) :=
  recurse max_distance term []

end BuildSym

namespace BackupConvert

/-- `generate_deletes` from `backup_truncate_and_convert.py`
(lines 33-47); its body is token-for-token the same as the one in
`build_symspell_dict.py`, so it is embedded as the same function. -/
def generate_deletes (term : List Char) (max_distance : Nat) : List (List Char) :=
  BuildSym.generate_deletes term max_distance

end BackupConvert

/-! ### The reachable-by-deletion specification -/

/-- One single-character deletion step. -/
def DelStep (t s : List Char) : Prop := ∃ i, i < t.length ∧ s = strDelete t i

/-- `DelReach k t s`: `s` is obtainable from `t` by exactly `k`
single-character deletions. -/
def DelReach : Nat → List Char → List Char → Prop
  | 0, t, s => s = t
  | k + 1, t, s => ∃ u, DelStep t u ∧ DelReach k u s

lemma strDelete_sublist (t : List Char) (i : Nat) : strDelete t i <+ t := by
  have h1 : t.drop (i + 1) <+ t.drop i := by
    have : t.drop (i + 1) = (t.drop i).tail := by
      rw [← List.drop_drop]
      simp [List.drop_one]
    rw [this]
    exact List.tail_sublist _
  calc strDelete t i = t.take i ++ t.drop (i + 1) := rfl
    _ <+ t.take i ++ t.drop i := List.Sublist.append_left h1 _
    _ = t := List.take_append_drop i t

lemma strDelete_length {t : List Char} {i : Nat} (h : i < t.length) :
    (strDelete t i).length = t.length - 1 := by
  unfold strDelete
  rw [List.length_append, List.length_take, List.length_drop]
  omega

lemma strDelete_cons_succ (a : Char) (t : List Char) (i : Nat) :
    strDelete (a :: t) (i + 1) = a :: strDelete t i := by
  simp [strDelete]

/-- Every proper sublist embeds into some one-character deletion. -/
lemma exists_strDelete_of_proper_sublist :
    ∀ {s t : List Char}, s <+ t → s ≠ t → ∃ i, i < t.length ∧ s <+ strDelete t i := by
  intro s t h
  induction h with
  | slnil => intro h; exact absurd rfl h
  | @cons l1 l2 a h ih =>
    intro _
    exact ⟨0, by simp, by simpa [strDelete] using h⟩
  | @cons₂ l1 l2 a h ih =>
    intro hne
    by_cases heq : l1 = l2
    · subst heq; exact absurd rfl hne
    · obtain ⟨i, hi, hsub⟩ := ih heq
      refine ⟨i + 1, by simpa using hi, ?_⟩
      rw [strDelete_cons_succ]
      exact hsub.cons₂ a

/-- `DelReach` is exactly: sublist with the matching length drop. -/
lemma delReach_iff : ∀ (k : Nat) (t s : List Char),
    DelReach k t s ↔ (s <+ t ∧ s.length + k = t.length) := by
  intro k
  induction k with
  | zero =>
    intro t s
    constructor
    · rintro rfl; exact ⟨List.Sublist.refl s, by omega⟩
    · rintro ⟨h, hl⟩
      exact h.eq_of_length (by omega)
  | succ k ih =>
    intro t s
    constructor
    · rintro ⟨u, ⟨i, hi, rfl⟩, hr⟩
      obtain ⟨hsub, hlen⟩ := (ih _ s).1 hr
      refine ⟨hsub.trans (strDelete_sublist t i), ?_⟩
      have := strDelete_length hi
      omega
    · rintro ⟨hsub, hlen⟩
      have hne : s ≠ t := by
        intro h; subst h; omega
      obtain ⟨i, hi, hsub'⟩ := exists_strDelete_of_proper_sublist hsub hne
      have hl := strDelete_length hi
      exact ⟨strDelete t i, ⟨i, hi, rfl⟩, (ih _ s).2 ⟨hsub', by omega⟩⟩

namespace BuildSym

/-- The loop body of `recurse` at depth `d+1`, named for the proofs;
`recurse (d+1) current dl` is definitionally a fold of this step over
`range(len(current))`. -/
def recurseStep (d : Nat) (current : List Char) (dl : List (List Char)) (i : Nat) :
    List (List Char) :=
  let deleted := strDelete current i
  if deleted ∈ dl then dl else recurse d deleted (deleted :: dl)

lemma recurse_zero (current : List Char) (dl : List (List Char)) :
    recurse 0 current dl = dl := rfl

lemma recurse_succ (d : Nat) (current : List Char) (dl : List (List Char)) :
    recurse (d + 1) current dl =
      (List.range current.length).foldl (recurseStep d current) dl := rfl

lemma recurse_mono : ∀ (d : Nat) (current : List Char) (dl : List (List Char)),
    dl ⊆ recurse d current dl := by
  intro d
  induction d with
  | zero => intro current dl x hx; exact hx
  | succ d ih =>
    intro current dl
    rw [recurse_succ]
    suffices h : ∀ (is : List Nat) (dl : List (List Char)),
        dl ⊆ is.foldl (recurseStep d current) dl by
      exact h _ dl
    intro is
    induction is with
    | nil => intro dl x hx; exact hx
    | cons i rest ihr =>
      intro dl x hx
      simp only [List.foldl_cons]
      apply ihr
      unfold recurseStep
      dsimp only
      split
      · exact hx
      · exact ih _ _ (List.mem_cons_of_mem _ hx)

lemma recurse_sound : ∀ (d : Nat) (current : List Char) (dl : List (List Char))
    (x : List Char), x ∈ recurse d current dl →
    x ∈ dl ∨ (x <+ current ∧ x.length < current.length ∧ current.length ≤ x.length + d) := by
  intro d
  induction d with
  | zero => intro current dl x hx; exact Or.inl hx
  | succ d ih =>
    intro current dl x hx
    rw [recurse_succ] at hx
    suffices h : ∀ (is : List Nat), (∀ i ∈ is, i < current.length) →
        ∀ (dl : List (List Char)), x ∈ is.foldl (recurseStep d current) dl →
        x ∈ dl ∨ (x <+ current ∧ x.length < current.length ∧
          current.length ≤ x.length + (d + 1)) by
      exact h _ (fun i hi => List.mem_range.1 hi) dl hx
    intro is
    induction is with
    | nil => intro _ dl hx; exact Or.inl hx
    | cons i rest ihr =>
      intro his dl hx
      simp only [List.foldl_cons] at hx
      have hi : i < current.length := his i (List.mem_cons_self i rest)
      rcases ihr (fun j hj => his j (List.mem_cons_of_mem _ hj)) _ hx with h | h
      · unfold recurseStep at h
        dsimp only at h
        by_cases hmem : strDelete current i ∈ dl
        · rw [if_pos hmem] at h
          exact Or.inl h
        · rw [if_neg hmem] at h
          rcases ih _ _ _ h with h2 | h2
          · rcases List.mem_cons.1 h2 with rfl | h3
            · have hlen := strDelete_length hi
              exact Or.inr ⟨strDelete_sublist _ _, by omega, by omega⟩
            · exact Or.inl h3
          · obtain ⟨hs, hl, hb⟩ := h2
            have hlen := strDelete_length hi
            exact Or.inr ⟨hs.trans (strDelete_sublist _ _), by omega, by omega⟩
      · exact Or.inr h

lemma recurse_nodup : ∀ (d : Nat) (current : List Char) (dl : List (List Char)),
    dl.Nodup → (recurse d current dl).Nodup := by
  intro d
  induction d with
  | zero => intro current dl h; exact h
  | succ d ih =>
    intro current dl h
    rw [recurse_succ]
    suffices haux : ∀ (is : List Nat) (dl : List (List Char)), dl.Nodup →
        (is.foldl (recurseStep d current) dl).Nodup by
      exact haux _ dl h
    intro is
    induction is with
    | nil => intro dl h; exact h
    | cons i rest ihr =>
      intro dl h
      simp only [List.foldl_cons]
      apply ihr
      unfold recurseStep
      dsimp only
      by_cases hmem : strDelete current i ∈ dl
      · rw [if_pos hmem]; exact h
      · rw [if_neg hmem]
        exact ih _ _ (List.nodup_cons.2 ⟨hmem, h⟩)

/-- `u` is fully expanded in `dl`: every strictly shorter sublist of `u`
that is still within overall budget (length at least `len(T) - D`) is
already in `dl`. -/
def ExpandedIn (D : Nat) (T u : List Char) (dl : List (List Char)) : Prop :=
  ∀ s, s <+ u → s.length < u.length → T.length ≤ s.length + D → s ∈ dl

lemma expandedIn_mono {D : Nat} {T u : List Char} {dl dl' : List (List Char)}
    (h : ExpandedIn D T u dl) (hsub : dl ⊆ dl') : ExpandedIn D T u dl' :=
  fun s hs hl hb => hsub (h s hs hl hb)

/-- Inner-loop invariant for the completeness direction.  `A` is the
ghost set of in-progress ancestors (all at least as long as
`current`). -/
lemma recurse_complete_aux (D : Nat) (T : List Char) (d : Nat)
    (ih : ∀ (current : List Char) (dl : List (List Char)) (A : Set (List Char)),
      d + T.length = D + current.length →
      (∀ u ∈ A, current.length ≤ u.length) →
      (∀ u ∈ dl, u ∈ A ∨ ExpandedIn D T u dl) →
      (∀ s, s <+ current → s.length < current.length → T.length ≤ s.length + D →
        s ∈ recurse d current dl) ∧
      (∀ u ∈ recurse d current dl,
        u ∈ A ∨ u = current ∨ ExpandedIn D T u (recurse d current dl)))
    (current : List Char) (A : Set (List Char))
    (hd : d + 1 + T.length = D + current.length)
    (hA : ∀ u ∈ A, current.length ≤ u.length) :
    ∀ (is : List Nat), (∀ i ∈ is, i < current.length) →
    ∀ (dl : List (List Char)),
      (∀ u ∈ dl, u ∈ A ∨ u = current ∨ ExpandedIn D T u dl) →
      dl ⊆ is.foldl (recurseStep d current) dl ∧
      (∀ i ∈ is, strDelete current i ∈ is.foldl (recurseStep d current) dl) ∧
      (∀ u ∈ is.foldl (recurseStep d current) dl,
        u ∈ A ∨ u = current ∨ ExpandedIn D T u (is.foldl (recurseStep d current) dl)) := by
  intro is
  induction is with
  | nil =>
    intro _ dl hinv
    exact ⟨fun x hx => hx, fun i hi => absurd hi (List.not_mem_nil i), hinv⟩
  | cons i rest ihr =>
    intro his dl hinv
    have hi : i < current.length := his i (List.mem_cons_self i rest)
    simp only [List.foldl_cons]
    by_cases hmem : strDelete current i ∈ dl
    · have hstep : recurseStep d current dl i = dl := by
        unfold recurseStep; dsimp only; rw [if_pos hmem]
      rw [hstep]
      obtain ⟨h1, h2, h3⟩ := ihr (fun j hj => his j (List.mem_cons_of_mem _ hj)) dl hinv
      refine ⟨h1, ?_, h3⟩
      intro j hj
      rcases List.mem_cons.1 hj with rfl | hj'
      · exact h1 hmem
      · exact h2 j hj'
    · have hstep : recurseStep d current dl i =
          recurse d (strDelete current i) (strDelete current i :: dl) := by
        unfold recurseStep; dsimp only; rw [if_neg hmem]
      rw [hstep]
      have hdlen : (strDelete current i).length = current.length - 1 := strDelete_length hi
      have hd' : d + T.length = D + (strDelete current i).length := by omega
      have hA' : ∀ u ∈ (insert (strDelete current i) (insert current A) : Set (List Char)),
          (strDelete current i).length ≤ u.length := by
        intro u hu
        rcases Set.mem_insert_iff.1 hu with rfl | hu
        · exact Nat.le_refl _
        rcases Set.mem_insert_iff.1 hu with rfl | hu
        · omega
        · have := hA u hu; omega
      have hpre : ∀ u ∈ strDelete current i :: dl,
          u ∈ (insert (strDelete current i) (insert current A) : Set (List Char)) ∨
          ExpandedIn D T u (strDelete current i :: dl) := by
        intro u hu
        rcases List.mem_cons.1 hu with rfl | hu
        · exact Or.inl (Set.mem_insert _ _)
        · rcases hinv u hu with h | h | h
          · exact Or.inl (Set.mem_insert_of_mem _ (Set.mem_insert_of_mem _ h))
          · refine Or.inl ?_
            rw [h]
            exact Set.mem_insert_of_mem _ (Set.mem_insert _ _)
          · exact Or.inr (expandedIn_mono h (fun x hx => List.mem_cons_of_mem _ hx))
      obtain ⟨hCur, hPost⟩ := ih (strDelete current i) (strDelete current i :: dl) _ hd' hA' hpre
      have hsubchild : strDelete current i :: dl ⊆
          recurse d (strDelete current i) (strDelete current i :: dl) := recurse_mono d _ _
      have hinv' : ∀ u ∈ recurse d (strDelete current i) (strDelete current i :: dl),
          u ∈ A ∨ u = current ∨
          ExpandedIn D T u (recurse d (strDelete current i) (strDelete current i :: dl)) := by
        intro u hu
        rcases hPost u hu with h | h | h
        · rcases Set.mem_insert_iff.1 h with rfl | h
          · exact Or.inr (Or.inr hCur)
          rcases Set.mem_insert_iff.1 h with rfl | h
          · exact Or.inr (Or.inl rfl)
          · exact Or.inl h
        · subst h
          exact Or.inr (Or.inr hCur)
        · exact Or.inr (Or.inr h)
      obtain ⟨h1, h2, h3⟩ := ihr (fun j hj => his j (List.mem_cons_of_mem _ hj)) _ hinv'
      refine ⟨?_, ?_, h3⟩
      · exact fun x hx => h1 (hsubchild (List.mem_cons_of_mem _ hx))
      · intro j hj
        rcases List.mem_cons.1 hj with rfl | hj'
        · exact h1 (hsubchild (List.mem_cons_self _ _))
        · exact h2 j hj'

/-- Completeness of the memoized recursion: despite the
`if deleted not in deletes` pruning, every string within budget is
generated.  Proved with a ghost set `A` of in-progress ancestors. -/
lemma recurse_complete (D : Nat) (T : List Char) :
    ∀ (d : Nat) (current : List Char) (dl : List (List Char)) (A : Set (List Char)),
      d + T.length = D + current.length →
      (∀ u ∈ A, current.length ≤ u.length) →
      (∀ u ∈ dl, u ∈ A ∨ ExpandedIn D T u dl) →
      (∀ s, s <+ current → s.length < current.length → T.length ≤ s.length + D →
        s ∈ recurse d current dl) ∧
      (∀ u ∈ recurse d current dl,
        u ∈ A ∨ u = current ∨ ExpandedIn D T u (recurse d current dl)) := by
  intro d
  induction d with
  | zero =>
    intro current dl A hd hA hpre
    rw [recurse_zero]
    constructor
    · intro s hs hlen hbound
      exfalso
      omega
    · intro u hu
      rcases hpre u hu with h | h
      · exact Or.inl h
      · exact Or.inr (Or.inr h)
  | succ d ih =>
    intro current dl A hd hA hpre
    rw [recurse_succ]
    have hinv0 : ∀ u ∈ dl, u ∈ A ∨ u = current ∨ ExpandedIn D T u dl := by
      intro u hu
      rcases hpre u hu with h | h
      · exact Or.inl h
      · exact Or.inr (Or.inr h)
    obtain ⟨h1, h2, h3⟩ := recurse_complete_aux D T d ih current A hd hA
      (List.range current.length) (fun i hi => List.mem_range.1 hi) dl hinv0
    constructor
    · intro s hs hlen hbound
      have hne : s ≠ current := by
        intro h; subst h; omega
      obtain ⟨i, hi, hsub⟩ := exists_strDelete_of_proper_sublist hs hne
      have hdeli := h2 i (List.mem_range.2 hi)
      by_cases heq : s = strDelete current i
      · rw [heq]; exact hdeli
      · have hdlen := strDelete_length hi
        have hlt : s.length < (strDelete current i).length := by
          have hle := hsub.length_le
          rcases Nat.lt_or_ge s.length (strDelete current i).length with h | h
          · exact h
          · exact absurd (hsub.eq_of_length (Nat.le_antisymm hle h)) heq
        rcases h3 _ hdeli with h | h | h
        · exfalso
          have := hA _ h
          omega
        · exfalso
          have hl2 : (strDelete current i).length = current.length := by rw [h]
          omega
        · exact h s hsub hlt hbound
    · exact h3

/-- Exact membership characterization of `generate_deletes`. -/
lemma generate_deletes_mem (T : List Char) (D : Nat) (x : List Char) :
    x ∈ generate_deletes T D ↔
      (x <+ T ∧ x.length < T.length ∧ T.length ≤ x.length + D) := by
  constructor
  · intro hx
    rcases recurse_sound D T [] x hx with h | h
    · cases h
    · exact h
  · rintro ⟨hs, hl, hb⟩
    exact (recurse_complete D T D T [] ∅ (by omega) (by simp) (by simp)).1 x hs hl hb

end BuildSym

/-- C3: `generate_deletes(T, D)` is exactly the set of distinct strings
obtainable from `T` by between 1 and `D` deletions: membership is
equivalent to reachability by `k ∈ [1, D]` deletions, `T` itself is
never in the result, distance `0` yields the empty set, every element's
length lies in `[max(0, len(T) - D), len(T) - 1]`, the result is
duplicate-free, and the copy in `backup_truncate_and_convert.py`
computes the same function. -/
theorem claim_C3_generate_deletes :
    ∀ (T : List Char) (D : Nat),
      (∀ x, x ∈ BuildSym.generate_deletes T D ↔
        ∃ k, 1 ≤ k ∧ k ≤ D ∧ DelReach k T x) ∧
      T ∉ BuildSym.generate_deletes T D ∧
      BuildSym.generate_deletes T 0 = [] ∧
      (∀ x ∈ BuildSym.generate_deletes T D,
        T.length - D ≤ x.length ∧ x.length ≤ T.length - 1) ∧
      (BuildSym.generate_deletes T D).Nodup ∧
      BackupConvert.generate_deletes T D = BuildSym.generate_deletes T D := by
  intro T D
  refine ⟨?_, ?_, rfl, ?_, BuildSym.recurse_nodup D T [] List.nodup_nil, rfl⟩
  · intro x
    rw [BuildSym.generate_deletes_mem]
    constructor
    · rintro ⟨hs, hl, hb⟩
      refine ⟨T.length - x.length, by omega, by omega, ?_⟩
      rw [delReach_iff]
      exact ⟨hs, by omega⟩
    · rintro ⟨k, hk1, hk2, hr⟩
      obtain ⟨hs, hlen⟩ := (delReach_iff k T x).1 hr
      exact ⟨hs, by omega, by omega⟩
  · intro h
    rw [BuildSym.generate_deletes_mem] at h
    omega
  · intro x hx
    rw [BuildSym.generate_deletes_mem] at hx
    omega

/-- Witness for C3 at a concrete input: `"ca"` is reachable from
`"cast"` by two deletions, is in `generate_deletes("cast", 2)`, and its
length lies in the required interval. -/
theorem claim_C3_witness :
    "ca".toList ∈ BuildSym.generate_deletes "cast".toList 2 ∧
    ("cast".toList.length - 2 ≤ "ca".toList.length ∧
      "ca".toList.length ≤ "cast".toList.length - 1) := by
  refine ⟨by decide, (claim_C3_generate_deletes "cast".toList 2).2.2.2.1 "ca".toList (by decide)⟩

/-! ## Stable sorting

Python's `sorted(l, key=k, reverse=True)` and `list.sort(key=k,
reverse=True)` are documented to be stable, and reverse sorting
preserves stability.  A stable descending sort is uniquely determined
by its contract, so it is modelled by left-to-right insertion, each
element going after all previously placed elements of equal key. -/

/-- Insert `x` into a descending-by-`key` sorted list, after every
element whose key is at least `key x`. -/
def insDesc {α : Type} (key : α → Int) (acc : List α) (x : α) : List α :=
  match acc with
  | [] => [x]
  | y :: ys => if key x ≤ key y then y :: insDesc key ys x else x :: y :: ys

/-- Model of Python `sorted(l, key=key, reverse=True)`: the stable
sort, descending by `key`. -/
def pySortDesc {α : Type} (key : α → Int) (l : List α) : List α :=
  l.foldl (insDesc key) []

lemma insDesc_perm {α : Type} (key : α → Int) (acc : List α) (x : α) :
    insDesc key acc x ~ x :: acc := by
  induction acc with
  | nil => rfl
  | cons y ys ih =>
    unfold insDesc
    split
    · calc y :: insDesc key ys x ~ y :: x :: ys := List.Perm.cons y ih
        _ ~ x :: y :: ys := List.Perm.swap x y ys
    · rfl

lemma pySortDesc_foldl_perm {α : Type} (key : α → Int) :
    ∀ (l acc : List α), l.foldl (insDesc key) acc ~ acc ++ l := by
  intro l
  induction l with
  | nil => intro acc; simp
  | cons x l ih =>
    intro acc
    calc (x :: l).foldl (insDesc key) acc = l.foldl (insDesc key) (insDesc key acc x) := rfl
      _ ~ insDesc key acc x ++ l := ih _
      _ ~ (x :: acc) ++ l := (insDesc_perm key acc x).append_right l
      _ = x :: (acc ++ l) := rfl
      _ ~ acc ++ x :: l := List.perm_middle.symm

lemma pySortDesc_perm {α : Type} (key : α → Int) (l : List α) :
    pySortDesc key l ~ l := by
  simpa using pySortDesc_foldl_perm key l []

lemma insDesc_sorted {α : Type} (key : α → Int) {acc : List α} (x : α)
    (h : List.Pairwise (fun a b => key b ≤ key a) acc) :
    List.Pairwise (fun a b => key b ≤ key a) (insDesc key acc x) := by
  induction acc with
  | nil => simp [insDesc]
  | cons y ys ih =>
    rcases List.pairwise_cons.1 h with ⟨h1, h2⟩
    unfold insDesc
    split
    · refine List.pairwise_cons.2 ⟨?_, ih h2⟩
      intro z hz
      have hz2 : z ∈ x :: ys := (insDesc_perm key ys x).mem_iff.1 hz
      rcases List.mem_cons.1 hz2 with rfl | hz'
      · assumption
      · exact h1 z hz'
    · refine List.pairwise_cons.2 ⟨?_, h⟩
      intro z hz
      rcases List.mem_cons.1 hz with rfl | hz'
      · omega
      · have := h1 z hz'
        omega

lemma pySortDesc_sorted {α : Type} (key : α → Int) (l : List α) :
    List.Pairwise (fun a b => key b ≤ key a) (pySortDesc key l) := by
  suffices h : ∀ (l acc : List α), List.Pairwise (fun a b => key b ≤ key a) acc →
      List.Pairwise (fun a b => key b ≤ key a) (l.foldl (insDesc key) acc) by
    exact h l [] List.Pairwise.nil
  intro l
  induction l with
  | nil => intro acc h; exact h
  | cons x l ih =>
    intro acc h
    exact ih _ (insDesc_sorted key x h)

lemma insDesc_filter {α : Type} (key : α → Int) {acc : List α} (x : α) (v : Int)
    (h : List.Pairwise (fun a b => key b ≤ key a) acc) :
    (insDesc key acc x).filter (fun a => key a == v)
      = if key x = v then acc.filter (fun a => key a == v) ++ [x]
        else acc.filter (fun a => key a == v) := by
  induction acc with
  | nil =>
    by_cases hv : key x = v <;> simp [insDesc, List.filter_cons, hv]
  | cons y ys ih =>
    rcases List.pairwise_cons.1 h with ⟨h1, h2⟩
    unfold insDesc
    split
    · rw [List.filter_cons, List.filter_cons, ih h2]
      by_cases hv : key x = v <;> by_cases hy : key y == v <;>
        simp [hv, hy]
    · rename_i hlt
      push_neg at hlt
      by_cases hv : key x = v
      · have hnone : (y :: ys).filter (fun a => key a == v) = [] := by
          rw [List.filter_eq_nil_iff]
          intro z hz
          rcases List.mem_cons.1 hz with rfl | hz'
          · simp only [beq_iff_eq]
            omega
          · have := h1 z hz'
            simp only [beq_iff_eq]
            omega
        rw [if_pos hv, hnone, List.filter_cons, hnone]
        simp [hv]
      · rw [if_neg hv, List.filter_cons]
        simp [hv]

/-- Stability of the sort: for every key value, the elements carrying
that key appear in the output in their original input order. -/
lemma pySortDesc_filter {α : Type} (key : α → Int) (l : List α) (v : Int) :
    (pySortDesc key l).filter (fun a => key a == v) = l.filter (fun a => key a == v) := by
  suffices h : ∀ (l acc : List α), List.Pairwise (fun a b => key b ≤ key a) acc →
      (l.foldl (insDesc key) acc).filter (fun a => key a == v)
        = acc.filter (fun a => key a == v) ++ l.filter (fun a => key a == v) by
    simpa using h l [] List.Pairwise.nil
  intro l
  induction l with
  | nil => intro acc h; simp
  | cons x l ih =>
    intro acc h
    have step : (x :: l).foldl (insDesc key) acc = l.foldl (insDesc key) (insDesc key acc x) := rfl
    rw [step, ih _ (insDesc_sorted key x h), insDesc_filter key x v h, List.filter_cons]
    by_cases hv : key x = v <;> simp [hv]

lemma insDesc_of_le {α : Type} (key : α → Int) {acc : List α} (x : α)
    (h : ∀ y ∈ acc, key x ≤ key y) : insDesc key acc x = acc ++ [x] := by
  induction acc with
  | nil => rfl
  | cons y ys ih =>
    unfold insDesc
    rw [if_pos (h y (List.mem_cons_self y ys))]
    rw [ih (fun z hz => h z (List.mem_cons_of_mem _ hz))]
    rfl

/-- Sorting an already descending-sorted list is the identity. -/
lemma pySortDesc_of_sorted {α : Type} (key : α → Int) {l : List α}
    (h : List.Pairwise (fun a b => key b ≤ key a) l) : pySortDesc key l = l := by
  suffices haux : ∀ (l acc : List α), List.Pairwise (fun a b => key b ≤ key a) l →
      (∀ y ∈ acc, ∀ z ∈ l, key z ≤ key y) → l.foldl (insDesc key) acc = acc ++ l by
    simpa using haux l [] h (by simp)
  intro l
  induction l with
  | nil => intro acc _ _; simp
  | cons x l ih =>
    intro acc hl hacc
    rcases List.pairwise_cons.1 hl with ⟨h1, h2⟩
    have step : (x :: l).foldl (insDesc key) acc = l.foldl (insDesc key) (insDesc key acc x) := rfl
    rw [step, insDesc_of_le key x (fun y hy => hacc y hy x (List.mem_cons_self x l))]
    rw [ih (acc ++ [x]) h2 ?_]
    · simp
    · intro y hy z hz
      rcases List.mem_append.1 hy with hy' | hy'
      · exact le_trans (h1 z hz) (hacc y hy' x (List.mem_cons_self x l))
      · rcases List.mem_singleton.1 hy' with rfl
        exact h1 z hz

/-! ## Raw dictionary entries and frequency-based truncation -/

/-- A raw record `{"w": ..., "f": ...}`; the `f` field may be absent. -/
structure RawEntry where
  w : List Char
  f : Option Int
deriving DecidableEq

namespace TruncateDict

/-- The sort-and-slice core of `truncate_dictionary` from
`truncate_dict.py` (lines 17-48): sort by `int(x.get("f", 0))`
descending (Python's stable sort) and keep the first `max_words`
entries.  File loading, the list-shape check and the prints are
external I/O. -/
def truncate_dictionary (data : List RawEntry) (max_words : Nat) : List RawEntry :=
  let sorted_data := pySortDesc (fun x => x.f.getD 0) data
  sorted_data.take max_words

end TruncateDict

namespace BackupConvert

/-- `truncate_dictionary` from `backup_truncate_and_convert.py`
(lines 79-95); its sort-and-slice core is identical to the one in
`truncate_dict.py`. -/
def truncate_dictionary (data : List RawEntry) (max_words : Nat) : List RawEntry :=
  let sorted_data := pySortDesc (fun x => x.f.getD 0) data
  sorted_data.take max_words

end BackupConvert

/-- C7: `selectTopN` (the sort-and-slice of `truncate_dictionary`)
returns `min(n, len(entries))` entries, descending by frequency, and
the sort is stable: for each frequency value the entries keep their
original relative order; both copies of the function agree. -/
theorem claim_C7_select_top_n :
    ∀ (data : List RawEntry) (n : Nat),
      (TruncateDict.truncate_dictionary data n).length = min n data.length ∧
      List.Pairwise (fun a b => b.f.getD 0 ≤ a.f.getD 0)
        (TruncateDict.truncate_dictionary data n) ∧
      (∀ v : Int,
        (pySortDesc (fun x => x.f.getD 0) data).filter (fun a => a.f.getD 0 == v)
          = data.filter (fun a => a.f.getD 0 == v)) ∧
      TruncateDict.truncate_dictionary data n
        = (pySortDesc (fun x => x.f.getD 0) data).take n ∧
      BackupConvert.truncate_dictionary data n = TruncateDict.truncate_dictionary data n := by
  intro data n
  refine ⟨?_, ?_, fun v => pySortDesc_filter _ data v, rfl, rfl⟩
  · unfold TruncateDict.truncate_dictionary
    rw [List.length_take, (pySortDesc_perm _ data).length_eq]
  · exact (pySortDesc_sorted (fun x => x.f.getD 0) data).sublist (List.take_sublist n _)

/-- C9: truncation is idempotent on collections of size at most `N`:
re-truncating the truncated output changes nothing (hence any
deterministic serialization of it is byte-identical). -/
theorem claim_C9_truncate_idempotent :
    ∀ (data : List RawEntry) (N : Nat), data.length ≤ N →
      TruncateDict.truncate_dictionary (TruncateDict.truncate_dictionary data N) N
        = TruncateDict.truncate_dictionary data N ∧
      (∀ serialize : List RawEntry → List Char,
        serialize (TruncateDict.truncate_dictionary (TruncateDict.truncate_dictionary data N) N)
          = serialize (TruncateDict.truncate_dictionary data N)) := by
  intro data N hlen
  have hkey : TruncateDict.truncate_dictionary data N = pySortDesc (fun x => x.f.getD 0) data := by
    unfold TruncateDict.truncate_dictionary
    exact List.take_of_length_le (by rw [(pySortDesc_perm _ data).length_eq]; exact hlen)
  have hmain : TruncateDict.truncate_dictionary (TruncateDict.truncate_dictionary data N) N
      = TruncateDict.truncate_dictionary data N := by
    rw [hkey]
    unfold TruncateDict.truncate_dictionary
    rw [pySortDesc_of_sorted _ (pySortDesc_sorted _ data)]
    exact List.take_of_length_le (by rw [(pySortDesc_perm _ data).length_eq]; exact hlen)
  exact ⟨hmain, fun serialize => congrArg serialize hmain⟩

/-- Witness for C9 at a concrete input. -/
theorem claim_C9_witness :
    ([⟨"b".toList, some 1⟩, ⟨"a".toList, some 5⟩] : List RawEntry).length ≤ 3 ∧
    TruncateDict.truncate_dictionary
        (TruncateDict.truncate_dictionary [⟨"b".toList, some 1⟩, ⟨"a".toList, some 5⟩] 3) 3
      = TruncateDict.truncate_dictionary [⟨"b".toList, some 1⟩, ⟨"a".toList, some 5⟩] 3 :=
  ⟨by decide, (claim_C9_truncate_idempotent [⟨"b".toList, some 1⟩, ⟨"a".toList, some 5⟩] 3
    (by decide)).1⟩

/-! ## Association lists (Python dicts) and the index-building loop -/

/-- A dictionary index entry
`{"word": ..., "frequency": ..., "source": 0}`. -/
structure IndexEntry where
  word : List Char
  frequency : Int
  source : Nat
deriving DecidableEq

/-- First-match association-list lookup (Python dict indexing). -/
def lookupKV {β : Type} (m : List (List Char × β)) (k : List Char) : Option β :=
  match m with
  | [] => none
  | (kk, v) :: rest => if kk = k then some v else lookupKV rest k

/-- Python's `d.setdefault(k, []).append(e)`: append `e` to the bucket
of `k`, creating the bucket (at the end — dicts keep key insertion
order) on first use. -/
def updAppend {β : Type} (m : List (List Char × List β)) (k : List Char) (e : β) :
    List (List Char × List β) :=
  match m with
  | [] => [(k, [e])]
  | (kk, vs) :: rest =>
      if kk = k then (kk, vs ++ [e]) :: rest else (kk, vs) :: updAppend rest k e

/-- A bucket's contents (`[]` when the key is absent). -/
def bucketOf {β : Type} (m : List (List Char × List β)) (k : List Char) : List β :=
  (lookupKV m k).getD []

lemma lookupKV_updAppend {β : Type} :
    ∀ (m : List (List Char × List β)) (k : List Char) (e : β) (q : List Char),
      lookupKV (updAppend m k e) q
        = if q = k then some (bucketOf m k ++ [e]) else lookupKV m q := by
  intro m
  induction m with
  | nil =>
    intro k e q
    by_cases h : q = k
    · subst h
      simp [updAppend, lookupKV, bucketOf]
    · have h2 : ¬ (k = q) := fun hh => h hh.symm
      simp [updAppend, lookupKV, bucketOf, h, h2]
  | cons kv rest ih =>
    intro k e q
    obtain ⟨kk, vs⟩ := kv
    by_cases hk : kk = k
    · subst hk
      by_cases hq : q = kk
      · subst hq
        simp [updAppend, lookupKV, bucketOf]
      · have h2 : ¬ (kk = q) := fun hh => hq hh.symm
        simp [updAppend, lookupKV, bucketOf, hq, h2]
    · by_cases hq : kk = q
      · subst hq
        have h2 : ¬ (kk = k) := hk
        simp [updAppend, lookupKV, hk, h2]
      · simp [updAppend, lookupKV, bucketOf, hk, hq, ih]

lemma bucketOf_updAppend {β : Type} (m : List (List Char × List β)) (k : List Char)
    (e : β) (q : List Char) :
    bucketOf (updAppend m k e) q
      = if q = k then bucketOf m k ++ [e] else bucketOf m q := by
  unfold bucketOf
  rw [lookupKV_updAppend]
  by_cases h : q = k <;> simp [bucketOf, h]

/-- The record constructed for an input entry by all three
index-building loops: original-case word, frequency defaulted to `1`,
source `0`. -/
def mkIndexEntry (e : RawEntry) : IndexEntry := ⟨e.w, e.f.getD 1, 0⟩

/-- One iteration of the index-building loop shared (token-for-token,
up to the prefix-length constant) by `convert_to_symspell`
(`backup_truncate_and_convert.py` lines 103-114), `load_input`
(`build_symspell_dict.py` lines 59-70) and `process_dictionary`
(`preprocess_dictionaries.py` lines 52-81): read `w` and
`f = entry.get("f", 1)`, compute `norm = normalize(w)`, append
`{word: w, frequency: f, source: 0}` to `normalizedIndex[norm]` and to
`prefixCache[norm[:l]]` for every `l` in `1..min(len(norm), P)`. -/
def buildIndexStep (nf : List Char → List Char) (P : Nat)
    (acc : List (List Char × List IndexEntry) × List (List Char × List IndexEntry))
    (entry : RawEntry) :
    List (List Char × List IndexEntry) × List (List Char × List IndexEntry) :=
  let w := entry.w
  let f := entry.f.getD 1
  let norm := nf w
  (updAppend acc.1 norm ⟨w, f, 0⟩,
   (List.range' 1 (min norm.length P)).foldl
     (fun pc l => updAppend pc (norm.take l) ⟨w, f, 0⟩) acc.2)

/-- The full index-building loop over the input entries. -/
def buildIndex (nf : List Char → List Char) (P : Nat) (data : List RawEntry) :
    List (List Char × List IndexEntry) × List (List Char × List IndexEntry) :=
  data.foldl (buildIndexStep nf P) ([], [])

lemma bucketOf_prefix_fold {β : Type} (norm : List Char) (e : β) :
    ∀ (is : List Nat) (pc : List (List Char × List β)) (p : List Char),
      bucketOf (is.foldl (fun pc l => updAppend pc (norm.take l) e) pc) p
        = bucketOf pc p ++ List.replicate ((is.map (fun l => norm.take l)).count p) e := by
  intro is
  induction is with
  | nil => intro pc p; simp
  | cons l rest ih =>
    intro pc p
    simp only [List.foldl_cons, List.map_cons]
    rw [ih, bucketOf_updAppend, List.count_cons]
    by_cases h : p = norm.take l
    · subst h
      simp [List.replicate_succ, List.append_assoc]
    · rw [if_neg h]
      have hb : (norm.take l == p) = false := by
        simp only [beq_eq_false_iff_ne, ne_eq]
        exact fun hh => h hh.symm
      rw [hb]
      simp

lemma count_eq_one_of_nodup_mem {α : Type} [BEq α] [LawfulBEq α] {l : List α} {a : α}
    (hnd : l.Nodup) (h : a ∈ l) : l.count a = 1 := by
  induction l with
  | nil => cases h
  | cons b l ih =>
    rcases List.mem_cons.1 h with rfl | h'
    · rw [List.count_cons]
      rw [List.count_eq_zero_of_not_mem (List.nodup_cons.1 hnd).1]
      simp
    · rw [List.count_cons, ih (List.nodup_cons.1 hnd).2 h']
      have hne : b ≠ a := by
        rintro rfl
        exact (List.nodup_cons.1 hnd).1 h'
      simp [hne]

lemma count_take_range' (norm p : List Char) (m : Nat) (hm : m ≤ norm.length) :
    ((List.range' 1 m).map (fun l => norm.take l)).count p
      = if p ≠ [] ∧ p.length ≤ m ∧ p <+: norm then 1 else 0 := by
  by_cases hmem : p ∈ (List.range' 1 m).map (fun l => norm.take l)
  · obtain ⟨l, hl, hlp⟩ := List.mem_map.1 hmem
    obtain ⟨hl1, hl2⟩ := List.mem_range'_1.1 hl
    have hlen : (norm.take l).length = l := by
      rw [List.length_take]
      omega
    have hcond : p ≠ [] ∧ p.length ≤ m ∧ p <+: norm := by
      refine ⟨?_, ?_, ?_⟩
      · intro h
        rw [h] at hlp
        rw [hlp] at hlen
        simp at hlen
        omega
      · rw [← hlp, hlen]
        omega
      · rw [← hlp]
        exact List.take_prefix l norm
    rw [if_pos hcond]
    apply count_eq_one_of_nodup_mem ?_ hmem
    apply List.Nodup.map_on ?_ (List.nodup_range' 1 m)
    intro a ha b hb hab
    obtain ⟨ha1, ha2⟩ := List.mem_range'_1.1 ha
    obtain ⟨hb1, hb2⟩ := List.mem_range'_1.1 hb
    have hla : (norm.take a).length = a := by rw [List.length_take]; omega
    have hlb : (norm.take b).length = b := by rw [List.length_take]; omega
    rw [← hla, ← hlb, hab]
  · rw [List.count_eq_zero_of_not_mem hmem]
    by_cases hcond : p ≠ [] ∧ p.length ≤ m ∧ p <+: norm
    · exfalso
      apply hmem
      obtain ⟨hne, hlen, hpre⟩ := hcond
      refine List.mem_map.2 ⟨p.length, ?_, ?_⟩
      · refine List.mem_range'_1.2 ⟨?_, ?_⟩
        · cases p with
          | nil => exact absurd rfl hne
          | cons a as => simp
        · omega
      · exact (List.prefix_iff_eq_take.1 hpre).symm
    · rw [if_neg hcond]

/-- Per-prefix-bucket effect of one entry. -/
lemma bucketOf_buildIndexStep_pc (nf : List Char → List Char) (P : Nat)
    (acc : List (List Char × List IndexEntry) × List (List Char × List IndexEntry))
    (e : RawEntry) (p : List Char) :
    bucketOf (buildIndexStep nf P acc e).2 p
      = bucketOf acc.2 p ++
        (if p ≠ [] ∧ p.length ≤ P ∧ p <+: nf e.w then [mkIndexEntry e] else []) := by
  unfold buildIndexStep
  dsimp only
  rw [bucketOf_prefix_fold, count_take_range' _ _ _ (Nat.min_le_left _ _)]
  have hiff : (p ≠ [] ∧ p.length ≤ min (nf e.w).length P ∧ p <+: nf e.w)
      ↔ (p ≠ [] ∧ p.length ≤ P ∧ p <+: nf e.w) := by
    constructor
    · rintro ⟨h1, h2, h3⟩
      exact ⟨h1, le_trans h2 (Nat.min_le_right _ _), h3⟩
    · rintro ⟨h1, h2, h3⟩
      have := h3.length_le
      exact ⟨h1, by omega, h3⟩
  by_cases hc : p ≠ [] ∧ p.length ≤ P ∧ p <+: nf e.w
  · rw [if_pos (hiff.2 hc), if_pos hc]
    rfl
  · rw [if_neg (fun hh => hc (hiff.1 hh)), if_neg hc]
    rfl

/-- Characterization of the normalized index built by the loop: each
bucket is exactly the input entries normalizing to its key, converted
by `mkIndexEntry`, in input order. -/
lemma buildIndex_ni_char (nf : List Char → List Char) (P : Nat) :
    ∀ (data : List RawEntry)
      (acc : List (List Char × List IndexEntry) × List (List Char × List IndexEntry))
      (k : List Char),
      bucketOf (data.foldl (buildIndexStep nf P) acc).1 k
        = bucketOf acc.1 k ++ (data.filter (fun e => nf e.w == k)).map mkIndexEntry := by
  intro data
  induction data with
  | nil => intro acc k; simp
  | cons e data ih =>
    intro acc k
    simp only [List.foldl_cons]
    rw [ih, List.filter_cons]
    have hstep : bucketOf (buildIndexStep nf P acc e).1 k
        = bucketOf acc.1 k ++ (if nf e.w = k then [mkIndexEntry e] else []) := by
      unfold buildIndexStep
      dsimp only
      rw [bucketOf_updAppend]
      by_cases h : nf e.w = k
      · subst h
        simp [mkIndexEntry]
      · rw [if_neg (fun hh => h hh.symm), if_neg h]
        simp
    rw [hstep]
    by_cases h : nf e.w = k
    · rw [if_pos h]
      have hb : (nf e.w == k) = true := by simp [h]
      rw [hb]
      simp [List.append_assoc]
    · rw [if_neg h]
      have hb : (nf e.w == k) = false := by simp [h]
      rw [hb]
      simp

/-- Characterization of the prefix cache built by the loop: the bucket
of `p` is exactly the input entries whose key has `p` as a nonempty
prefix of length at most `P`, in input order. -/
lemma buildIndex_pc_char (nf : List Char → List Char) (P : Nat) :
    ∀ (data : List RawEntry)
      (acc : List (List Char × List IndexEntry) × List (List Char × List IndexEntry))
      (p : List Char),
      bucketOf (data.foldl (buildIndexStep nf P) acc).2 p
        = bucketOf acc.2 p ++
          (data.filter (fun e =>
            decide (p ≠ [] ∧ p.length ≤ P ∧ p <+: nf e.w))).map mkIndexEntry := by
  intro data
  induction data with
  | nil => intro acc p; simp
  | cons e data ih =>
    intro acc p
    simp only [List.foldl_cons]
    rw [ih, List.filter_cons, bucketOf_buildIndexStep_pc]
    by_cases h : p ≠ [] ∧ p.length ≤ P ∧ p <+: nf e.w
    · have hb : decide (p ≠ [] ∧ p.length ≤ P ∧ p <+: nf e.w) = true := by
        simp [h]
      rw [if_pos h, hb]
      simp [List.append_assoc]
    · have hb : decide (p ≠ [] ∧ p.length ≤ P ∧ p <+: nf e.w) = false := by
        simpa using h
      rw [if_neg h, hb]
      simp

/-! ## Python `sorted` on strings, and `defaultdict(set)` -/

/-- Python string comparison: code-point lexicographic `≤`. -/
def lexLe (a b : List Char) : Bool :=
  match a, b with
  | [], _ => true
  | _ :: _, [] => false
  | x :: xs, y :: ys => if x = y then lexLe xs ys else decide (x < y)

/-- Stable ascending insertion for `sorted(v)` on strings. -/
def insAsc (acc : List (List Char)) (x : List Char) : List (List Char) :=
  match acc with
  | [] => [x]
  | y :: ys => if lexLe y x then y :: insAsc ys x else x :: y :: ys

/-- Model of Python `sorted(v)` for a collection of strings. -/
def pySortStr (l : List (List Char)) : List (List Char) :=
  l.foldl insAsc []

lemma insAsc_perm (acc : List (List Char)) (x : List Char) :
    insAsc acc x ~ x :: acc := by
  induction acc with
  | nil => rfl
  | cons y ys ih =>
    unfold insAsc
    split
    · calc y :: insAsc ys x ~ y :: x :: ys := List.Perm.cons y ih
        _ ~ x :: y :: ys := List.Perm.swap x y ys
    · rfl

lemma pySortStr_perm (l : List (List Char)) : pySortStr l ~ l := by
  suffices h : ∀ (l acc : List (List Char)), l.foldl insAsc acc ~ acc ++ l by
    simpa using h l []
  intro l
  induction l with
  | nil => intro acc; simp
  | cons x l ih =>
    intro acc
    calc (x :: l).foldl insAsc acc = l.foldl insAsc (insAsc acc x) := rfl
      _ ~ insAsc acc x ++ l := ih _
      _ ~ (x :: acc) ++ l := (insAsc_perm acc x).append_right l
      _ = x :: (acc ++ l) := rfl
      _ ~ acc ++ x :: l := List.perm_middle.symm

lemma mem_pySortStr {x : List Char} {l : List (List Char)} :
    x ∈ pySortStr l ↔ x ∈ l := (pySortStr_perm l).mem_iff

/-- `defaultdict(set)` update `deletes[k].add(v)`: create the bucket on
first use, add `v` to the value set (no duplicates). -/
def dictSetAdd (m : List (List Char × List (List Char))) (k v : List Char) :
    List (List Char × List (List Char)) :=
  match m with
  | [] => [(k, [v])]
  | (kk, vs) :: rest =>
      if kk = k then (kk, if v ∈ vs then vs else vs ++ [v]) :: rest
      else (kk, vs) :: dictSetAdd rest k v

/-- The bucket of `S` exists and contains `x`. -/
def hasVal (m : List (List Char × List (List Char))) (S x : List Char) : Prop :=
  ∃ vs, lookupKV m S = some vs ∧ x ∈ vs

lemma dictSetAdd_self : ∀ (m : List (List Char × List (List Char))) (k v : List Char),
    hasVal (dictSetAdd m k v) k v := by
  intro m
  induction m with
  | nil =>
    intro k v
    exact ⟨[v], by simp [dictSetAdd, lookupKV], List.mem_singleton.2 rfl⟩
  | cons kv rest ih =>
    intro k v
    obtain ⟨kk, vs⟩ := kv
    by_cases hk : kk = k
    · subst hk
      refine ⟨if v ∈ vs then vs else vs ++ [v], by simp [dictSetAdd, lookupKV], ?_⟩
      by_cases hv : v ∈ vs <;> simp [hv]
    · obtain ⟨vs', hl, hv⟩ := ih k v
      exact ⟨vs', by simp [dictSetAdd, lookupKV, hk, hl], hv⟩

lemma dictSetAdd_mono {m : List (List Char × List (List Char))} {S x : List Char}
    (h : hasVal m S x) : ∀ (k v : List Char), hasVal (dictSetAdd m k v) S x := by
  induction m with
  | nil =>
    obtain ⟨vs, hl, _⟩ := h
    simp [lookupKV] at hl
  | cons kv rest ih =>
    intro k v
    obtain ⟨kk, vs⟩ := kv
    obtain ⟨vs', hl, hv⟩ := h
    by_cases hk : kk = k
    · subst hk
      by_cases hS : kk = S
      · subst hS
        simp [lookupKV] at hl
        subst hl
        refine ⟨if v ∈ vs then vs else vs ++ [v], by simp [dictSetAdd, lookupKV], ?_⟩
        by_cases hv2 : v ∈ vs <;> simp [hv2, hv]
      · simp [lookupKV, hS] at hl
        exact ⟨vs', by simp [dictSetAdd, lookupKV, hS, hl], hv⟩
    · by_cases hS : kk = S
      · subst hS
        simp [lookupKV] at hl
        subst hl
        exact ⟨vs, by simp [dictSetAdd, lookupKV, hk], hv⟩
      · simp [lookupKV, hS] at hl
        obtain ⟨vs2, hl2, hv2⟩ := ih ⟨vs', hl, hv⟩ k v
        exact ⟨vs2, by simp [dictSetAdd, lookupKV, hk, hS, hl2], hv2⟩

lemma dictSetAdd_sound : ∀ (m : List (List Char × List (List Char))) (k v S x : List Char),
    hasVal (dictSetAdd m k v) S x → hasVal m S x ∨ (S = k ∧ x = v) := by
  intro m
  induction m with
  | nil =>
    intro k v S x ⟨vs, hl, hv⟩
    simp [dictSetAdd, lookupKV] at hl
    obtain ⟨hk, hvs⟩ := hl
    subst hvs
    exact Or.inr ⟨hk.symm, (List.mem_singleton.1 hv).symm ▸ rfl⟩
  | cons kv rest ih =>
    intro k v S x h
    obtain ⟨kk, vs⟩ := kv
    obtain ⟨vs', hl, hv⟩ := h
    by_cases hk : kk = k
    · subst hk
      by_cases hS : kk = S
      · subst hS
        simp [dictSetAdd, lookupKV] at hl
        subst hl
        by_cases hv2 : v ∈ vs
        · rw [if_pos hv2] at hv
          exact Or.inl ⟨vs, by simp [lookupKV], hv⟩
        · rw [if_neg hv2] at hv
          rcases List.mem_append.1 hv with h1 | h1
          · exact Or.inl ⟨vs, by simp [lookupKV], h1⟩
          · exact Or.inr ⟨rfl, List.mem_singleton.1 h1⟩
      · simp [dictSetAdd, lookupKV, hS] at hl
        exact Or.inl ⟨vs', by simp [lookupKV, hS, hl], hv⟩
    · by_cases hS : kk = S
      · subst hS
        simp [dictSetAdd, lookupKV, hk] at hl
        subst hl
        exact Or.inl ⟨vs, by simp [lookupKV], hv⟩
      · simp [dictSetAdd, lookupKV, hk, hS] at hl
        rcases ih k v S x ⟨vs', hl, hv⟩ with h2 | h2
        · obtain ⟨vs2, hl2, hv2⟩ := h2
          exact Or.inl ⟨vs2, by simp [lookupKV, hS, hl2], hv2⟩
        · exact Or.inr h2

lemma lookupKV_map_snd {β γ : Type} (g : β → γ) :
    ∀ (m : List (List Char × β)) (k : List Char),
      lookupKV (m.map (fun kv => (kv.1, g kv.2))) k = (lookupKV m k).map g := by
  intro m
  induction m with
  | nil => intro k; rfl
  | cons kv rest ih =>
    intro k
    obtain ⟨kk, v⟩ := kv
    by_cases h : kk = k <;> simp [lookupKV, h, ih]

/-- The symDeletes assembly loop shared by the two conversion paths:
for every key `norm` of the normalized index, generate the deletes of
`norm[:prefix_length]` and add `vf norm` to the bucket of each variant.
The per-script policy is `vf`: `backup_truncate_and_convert.py` line
122 adds the PREFIX (`vf = take prefix_length`),
`build_symspell_dict.py` line 93 adds the FULL normalized key
(`vf = id`). -/
def deletesLoop (max_edit_distance prefix_length : Nat) (vf : List Char → List Char)
    (ni : List (List Char × List IndexEntry)) : List (List Char × List (List Char)) :=
  ni.foldl (fun dels it =>
    (BuildSym.generate_deletes (it.1.take prefix_length) max_edit_distance).foldl
      (fun dels d => dictSetAdd dels d (vf it.1)) dels) []

lemma dsFold_mono {S x : List Char} :
    ∀ (ds : List (List Char)) (v : List Char)
      (m : List (List Char × List (List Char))), hasVal m S x →
      hasVal (ds.foldl (fun m d => dictSetAdd m d v) m) S x := by
  intro ds
  induction ds with
  | nil => intro v m h; exact h
  | cons d ds ih =>
    intro v m h
    exact ih v _ (dictSetAdd_mono h d v)

lemma dsFold_self {S : List Char} :
    ∀ (ds : List (List Char)) (v : List Char)
      (m : List (List Char × List (List Char))), S ∈ ds →
      hasVal (ds.foldl (fun m d => dictSetAdd m d v) m) S v := by
  intro ds
  induction ds with
  | nil => intro v m h; cases h
  | cons d ds ih =>
    intro v m h
    rcases List.mem_cons.1 h with rfl | h'
    · exact dsFold_mono ds v _ (dictSetAdd_self m S v)
    · exact ih v _ h'

lemma dsFold_sound {S x : List Char} :
    ∀ (ds : List (List Char)) (v : List Char)
      (m : List (List Char × List (List Char))),
      hasVal (ds.foldl (fun m d => dictSetAdd m d v) m) S x →
      hasVal m S x ∨ x = v := by
  intro ds
  induction ds with
  | nil => intro v m h; exact Or.inl h
  | cons d ds ih =>
    intro v m h
    rcases ih v _ h with h2 | h2
    · rcases dictSetAdd_sound m d v S x h2 with h3 | h3
      · exact Or.inl h3
      · exact Or.inr h3.2
    · exact Or.inr h2

lemma deletesLoop_fold_mono {S x : List Char}
    (M P : Nat) (vf : List Char → List Char) :
    ∀ (items : List (List Char × List IndexEntry))
      (m : List (List Char × List (List Char))), hasVal m S x →
      hasVal (items.foldl (fun dels it =>
        (BuildSym.generate_deletes (it.1.take P) M).foldl
          (fun dels d => dictSetAdd dels d (vf it.1)) dels) m) S x := by
  intro items
  induction items with
  | nil => intro m h; exact h
  | cons it items ih =>
    intro m h
    exact ih _ (dsFold_mono _ _ _ h)

/-- Completeness of the symDeletes loop: every key of the index gets
`vf key` registered under every delete variant of its prefix. -/
lemma deletesLoop_complete (M P : Nat) (vf : List Char → List Char)
    (ni : List (List Char × List IndexEntry)) (K : List Char)
    (hK : K ∈ ni.map Prod.fst) (S : List Char)
    (hS : S ∈ BuildSym.generate_deletes (K.take P) M) :
    hasVal (deletesLoop M P vf ni) S (vf K) := by
  unfold deletesLoop
  obtain ⟨it, hit, hfst⟩ := List.mem_map.1 hK
  clear hK
  revert hit
  generalize hm : ([] : List (List Char × List (List Char))) = m
  clear hm
  induction ni generalizing m with
  | nil => intro h; cases h
  | cons it0 items ih =>
    intro hit
    simp only [List.foldl_cons]
    rcases List.mem_cons.1 hit with rfl | h'
    · apply deletesLoop_fold_mono
      subst hfst
      exact dsFold_self _ _ _ hS
    · exact ih _ h'

lemma deletesLoop_fold_sound (M P : Nat) (vf : List Char → List Char) (S x : List Char) :
    ∀ (items : List (List Char × List IndexEntry))
      (m : List (List Char × List (List Char))),
      hasVal (items.foldl (fun dels it =>
        (BuildSym.generate_deletes (it.1.take P) M).foldl
          (fun dels d => dictSetAdd dels d (vf it.1)) dels) m) S x →
      hasVal m S x ∨ ∃ K ∈ items.map Prod.fst, x = vf K := by
  intro items
  induction items with
  | nil => intro m h; exact Or.inl h
  | cons it0 items ih =>
    intro m h
    simp only [List.foldl_cons] at h
    rcases ih _ h with h1 | h1
    · rcases dsFold_sound _ _ _ h1 with h2 | h2
      · exact Or.inl h2
      · exact Or.inr ⟨it0.1, by simp, h2⟩
    · obtain ⟨K, hK, hx⟩ := h1
      exact Or.inr ⟨K, List.mem_cons_of_mem _ hK, hx⟩

/-- Soundness of the symDeletes loop: every value stored in any bucket
is `vf key` for some key of the index. -/
lemma deletesLoop_sound (M P : Nat) (vf : List Char → List Char)
    (ni : List (List Char × List IndexEntry)) (S x : List Char)
    (h : hasVal (deletesLoop M P vf ni) S x) :
    ∃ K ∈ ni.map Prod.fst, x = vf K := by
  unfold deletesLoop at h
  rcases deletesLoop_fold_sound M P vf S x ni [] h with h1 | h1
  · obtain ⟨vs, hl, _⟩ := h1
    simp [lookupKV] at hl
  · exact h1

/-! ## The serialized artifacts -/

/-- `symMeta`: exactly the two fields written by both conversion
scripts (`maxEditDistance`, `prefixLength`); neither script records a
policy field. -/
structure SymMeta where
  maxEditDistance : Nat
  prefixLength : Nat
deriving DecidableEq

/-- The output artifact
`{normalizedIndex, prefixCache, symDeletes, symMeta}`. -/
structure SymDict where
  normalizedIndex : List (List Char × List IndexEntry)
  prefixCache : List (List Char × List IndexEntry)
  symDeletes : List (List Char × List (List Char))
  symMeta : SymMeta
deriving DecidableEq

namespace BackupConvert

/-- `convert_to_symspell` from `backup_truncate_and_convert.py`
(lines 98-135): build normalizedIndex and prefixCache (frequency
default 1), then the delete buckets — the value added per variant is
the key PREFIX `norm[:prefix_length]` (line 122) — then sort each
bucket.  The computed-but-unused `freq = max(...)` of line 119 has no
effect on the result and is omitted. -/
def convert_to_symspell (U : Uni) (data : List RawEntry)
    (max_edit_distance prefix_length : Nat) : SymDict :=
  let built := buildIndex (fun w => normalize U w ['i','t']) prefix_length data
  let deletes := deletesLoop max_edit_distance prefix_length
    (fun norm => norm.take prefix_length) built.1
  { normalizedIndex := built.1
    prefixCache := built.2
    symDeletes := deletes.map (fun kv => (kv.1, pySortStr kv.2))
    symMeta := { maxEditDistance := max_edit_distance, prefixLength := prefix_length } }

end BackupConvert

namespace BuildSym

/-- The two shapes `load_input` can return
(`build_symspell_dict.py` lines 52-74). -/
structure DictInput where
  normalizedIndex : List (List Char × List IndexEntry)
  prefixCache : Option (List (List Char × List IndexEntry))
deriving DecidableEq

/-- `load_input`, list branch (lines 55-71): build normalizedIndex and
prefixCache with the fixed prefix length 4 and frequency default 1. -/
def load_input_list (U : Uni) (data : List RawEntry) : DictInput :=
  let built := buildIndex (fun w => normalize U w ['i','t']) 4 data
  { normalizedIndex := built.1, prefixCache := some built.2 }

/-- `load_input`, dict branch (lines 72-74): data already in
DictionaryIndex shape is returned unchanged. -/
def load_input_dict (data : DictInput) : DictInput := data

/-- `main` from `build_symspell_dict.py` (lines 77-111), after
`load_input`: recompute symDeletes — the value added per variant is
the FULL normalized key `norm` (line 93) — and reassemble the output
with the input's `normalizedIndex` unchanged and
`data.get("prefixCache", {})`. -/
def main (inp : DictInput) (max_edit_distance prefix_length : Nat) : SymDict :=
  let normalized_index := inp.normalizedIndex
  let deletes := deletesLoop max_edit_distance prefix_length
    (fun norm => norm) normalized_index
  { normalizedIndex := normalized_index
    prefixCache := inp.prefixCache.getD []
    symDeletes := deletes.map (fun kv => (kv.1, pySortStr kv.2))
    symMeta := { maxEditDistance := max_edit_distance, prefixLength := prefix_length } }

end BuildSym

namespace Preprocess

/-- `process_dictionary` from `preprocess_dictionaries.py`
(lines 52-85): the index-building loop with
`cache_prefix_length = 4` and frequency default 1, followed by sorting
every prefix-cache bucket by frequency descending
(`prefix_cache[p].sort(key=..., reverse=True)`, lines 83-85 — Python's
stable sort). -/
def process_dictionary (U : Uni) (language : List Char) (data : List RawEntry) :
    List (List Char × List IndexEntry) × List (List Char × List IndexEntry) :=
  let built := buildIndex (fun w => normalize U w language) 4 data
  (built.1, built.2.map (fun kv => (kv.1, pySortDesc (fun x => x.frequency) kv.2)))

end Preprocess

lemma bucketOf_map_snd {β γ : Type} (g : List β → List γ) (hg : g [] = [])
    (m : List (List Char × List β)) (p : List Char) :
    bucketOf (m.map (fun kv => (kv.1, g kv.2))) p = g (bucketOf m p) := by
  unfold bucketOf
  rw [lookupKV_map_snd]
  cases lookupKV m p <;> simp [hg]

lemma bucketOf_nil {β : Type} (k : List Char) :
    bucketOf ([] : List (List Char × List β)) k = [] := rfl

/-- The two bucket characterizations specialized to `buildIndex`. -/
lemma buildIndex_ni (nf : List Char → List Char) (P : Nat) (data : List RawEntry)
    (k : List Char) :
    bucketOf (buildIndex nf P data).1 k
      = (data.filter (fun e => nf e.w == k)).map mkIndexEntry := by
  unfold buildIndex
  rw [buildIndex_ni_char]
  rfl

lemma buildIndex_pc (nf : List Char → List Char) (P : Nat) (data : List RawEntry)
    (p : List Char) :
    bucketOf (buildIndex nf P data).2 p
      = (data.filter (fun e =>
          decide (p ≠ [] ∧ p.length ≤ P ∧ p <+: nf e.w))).map mkIndexEntry := by
  unfold buildIndex
  rw [buildIndex_pc_char]
  rfl

/-- Membership of a converted entry in a normalized-index bucket is
exactly "the bucket key is the entry's normalized key". -/
lemma mem_buildIndex_ni (nf : List Char → List Char) (P : Nat) (data : List RawEntry)
    {e : RawEntry} (he : e ∈ data) (k : List Char) :
    mkIndexEntry e ∈ bucketOf (buildIndex nf P data).1 k ↔ k = nf e.w := by
  rw [buildIndex_ni]
  constructor
  · intro h
    obtain ⟨e2, he2, heq⟩ := List.mem_map.1 h
    have he2f := List.mem_filter.1 he2
    have hw : e2.w = e.w := congrArg IndexEntry.word heq
    have := he2f.2
    simp only [beq_iff_eq] at this
    rw [← this, hw]
  · intro h
    subst h
    exact List.mem_map.2 ⟨e, List.mem_filter.2 ⟨he, by simp⟩, rfl⟩

/-- Membership of a converted entry in a prefix bucket is exactly "the
bucket key is a prefix `norm[:l]` for some `l ∈ [1, min(len(norm), P)]`". -/
lemma mem_buildIndex_pc (nf : List Char → List Char) (P : Nat) (data : List RawEntry)
    {e : RawEntry} (he : e ∈ data) (p : List Char) :
    mkIndexEntry e ∈ bucketOf (buildIndex nf P data).2 p ↔
      ∃ l, 1 ≤ l ∧ l ≤ min (nf e.w).length P ∧ p = (nf e.w).take l := by
  rw [buildIndex_pc]
  constructor
  · intro h
    obtain ⟨e2, he2, heq⟩ := List.mem_map.1 h
    have he2f := List.mem_filter.1 he2
    have hw : e2.w = e.w := congrArg IndexEntry.word heq
    have hc := of_decide_eq_true he2f.2
    rw [hw] at hc
    obtain ⟨h1, h2, h3⟩ := hc
    refine ⟨p.length, ?_, ?_, (List.prefix_iff_eq_take.1 h3)⟩
    · cases p with
      | nil => exact absurd rfl h1
      | cons a as => simp
    · have := h3.length_le
      omega
  · rintro ⟨l, hl1, hl2, rfl⟩
    have hlen : ((nf e.w).take l).length = l := by
      rw [List.length_take]
      omega
    refine List.mem_map.2 ⟨e, List.mem_filter.2 ⟨he, decide_eq_true ?_⟩, rfl⟩
    refine ⟨?_, by omega, List.take_prefix l (nf e.w)⟩
    intro hnil
    rw [hnil] at hlen
    simp at hlen
    omega

/-- The candidate prefix buckets of a key are pairwise distinct and
number exactly `min(len(key), P)`. -/
lemma takes_nodup_length (norm : List Char) (m : Nat) (hm : m ≤ norm.length) :
    ((List.range' 1 m).map (fun l => norm.take l)).Nodup ∧
    ((List.range' 1 m).map (fun l => norm.take l)).length = m := by
  constructor
  · apply List.Nodup.map_on ?_ (List.nodup_range' 1 m)
    intro a ha b hb hab
    obtain ⟨ha1, ha2⟩ := List.mem_range'_1.1 ha
    obtain ⟨hb1, hb2⟩ := List.mem_range'_1.1 hb
    have hla : (norm.take a).length = a := by rw [List.length_take]; omega
    have hlb : (norm.take b).length = b := by rw [List.length_take]; omega
    rw [← hla, ← hlb, hab]
  · rw [List.length_map, List.length_range']

/-- C6 (amended): in `convert_to_symspell` and `load_input`, every
bucket of normalizedIndex is exactly the entries normalizing to its
key, in input order; every prefix bucket is exactly the entries whose
key extends that nonempty prefix of length at most `P`, in input
order; an entry sits under exactly its normalized key and exactly the
prefixes `norm[:l]`, `l ∈ [1, min(len(norm), P)]`.
`process_dictionary` of `preprocess_dictionaries.py` builds the same
buckets but then re-sorts every prefix bucket by frequency descending
(stable), so its prefix buckets are NOT in input insertion order. -/
theorem claim_C6_index_build :
    ∀ (U : Uni) (data : List RawEntry) (M P : Nat),
      (∀ k, bucketOf (BackupConvert.convert_to_symspell U data M P).normalizedIndex k
        = (data.filter (fun e =>
            BackupConvert.normalize U e.w ['i','t'] == k)).map mkIndexEntry) ∧
      (∀ p, bucketOf (BackupConvert.convert_to_symspell U data M P).prefixCache p
        = (data.filter (fun e => decide (p ≠ [] ∧ p.length ≤ P ∧
            p <+: BackupConvert.normalize U e.w ['i','t']))).map mkIndexEntry) ∧
      (∀ e ∈ data, ∀ k,
        mkIndexEntry e ∈ bucketOf (BackupConvert.convert_to_symspell U data M P).normalizedIndex k
          ↔ k = BackupConvert.normalize U e.w ['i','t']) ∧
      (∀ e ∈ data, ∀ p,
        mkIndexEntry e ∈ bucketOf (BackupConvert.convert_to_symspell U data M P).prefixCache p
          ↔ ∃ l, 1 ≤ l ∧ l ≤ min (BackupConvert.normalize U e.w ['i','t']).length P ∧
              p = (BackupConvert.normalize U e.w ['i','t']).take l) ∧
      (∀ (lang : List Char) (k : List Char),
        bucketOf (Preprocess.process_dictionary U lang data).1 k
          = (data.filter (fun e => Preprocess.normalize U e.w lang == k)).map mkIndexEntry) ∧
      (∀ (lang : List Char) (p : List Char),
        bucketOf (Preprocess.process_dictionary U lang data).2 p
          = pySortDesc (fun x => x.frequency)
              ((data.filter (fun e => decide (p ≠ [] ∧ p.length ≤ 4 ∧
                p <+: Preprocess.normalize U e.w lang))).map mkIndexEntry)) ∧
      (∀ e ∈ data,
        (((List.range' 1 (min (BackupConvert.normalize U e.w ['i','t']).length P)).map
            (fun l => (BackupConvert.normalize U e.w ['i','t']).take l)).Nodup ∧
         ((List.range' 1 (min (BackupConvert.normalize U e.w ['i','t']).length P)).map
            (fun l => (BackupConvert.normalize U e.w ['i','t']).take l)).length
           = min (BackupConvert.normalize U e.w ['i','t']).length P)) := by
  intro U data M P
  refine ⟨?_, ?_, ?_, ?_, ?_, ?_, ?_⟩
  · intro k
    exact buildIndex_ni _ P data k
  · intro p
    exact buildIndex_pc _ P data p
  · intro e he k
    exact mem_buildIndex_ni _ P data he k
  · intro e he p
    exact mem_buildIndex_pc _ P data he p
  · intro lang k
    exact buildIndex_ni _ 4 data k
  · intro lang p
    unfold Preprocess.process_dictionary
    dsimp only
    rw [bucketOf_map_snd _ rfl, buildIndex_pc]
  · intro e he
    exact takes_nodup_length _ _ (Nat.min_le_left _ _)

/-- Counterexample to C6 as stated: on the preprocess path, the prefix
bucket of `"a"` for input `[{"ab", 5}, {"ac", 9}]` is frequency-sorted
to `[ac, ab]`, not the input insertion order `[ab, ac]`. -/
theorem claim_C6_counterexample :
    bucketOf (Preprocess.process_dictionary uniIT "it".toList
        [⟨"ab".toList, some 5⟩, ⟨"ac".toList, some 9⟩]).2 "a".toList
      ≠ ([⟨"ab".toList, some 5⟩, ⟨"ac".toList, some 9⟩].filter (fun e =>
          decide ("a".toList ≠ [] ∧ "a".toList.length ≤ 4 ∧
            "a".toList <+: Preprocess.normalize uniIT e.w "it".toList))).map mkIndexEntry := by
  decide

/-- Witness for C6 at a concrete input: the entry for "casa" sits in
the normalizedIndex bucket "casa" of the convert path. -/
theorem claim_C6_witness :
    (⟨"casa".toList, some 100⟩ : RawEntry) ∈ [(⟨"casa".toList, some 100⟩ : RawEntry)] ∧
    (mkIndexEntry ⟨"casa".toList, some 100⟩ ∈
      bucketOf (BackupConvert.convert_to_symspell uniIT [⟨"casa".toList, some 100⟩] 2 4).normalizedIndex
        "casa".toList
      ↔ "casa".toList = BackupConvert.normalize uniIT "casa".toList ['i','t']) :=
  ⟨by decide, (claim_C6_index_build uniIT [⟨"casa".toList, some 100⟩] 2 4).2.2.1
    ⟨"casa".toList, some 100⟩ (by decide) "casa".toList⟩

/-- Counterexample to C4 as stated: an entry with no `f` field is
indexed with frequency 1, not 0. -/
theorem claim_C4_counterexample :
    bucketOf (BackupConvert.convert_to_symspell uniIT [⟨"casa".toList, none⟩] 2 4).normalizedIndex
        "casa".toList
      ≠ [⟨"casa".toList, 0, 0⟩] := by
  decide

lemma insDesc_map {α β : Type} (key : α → Int) (keyb : β → Int) (g : β → α)
    (hk : ∀ b, key (g b) = keyb b) :
    ∀ (acc : List β) (x : β), insDesc key (acc.map g) (g x) = (insDesc keyb acc x).map g := by
  intro acc x
  induction acc with
  | nil => rfl
  | cons y ys ih =>
    simp only [List.map_cons]
    unfold insDesc
    rw [hk, hk]
    by_cases h : keyb x ≤ keyb y <;> simp [h, ih]

lemma pySortDesc_map {α β : Type} (key : α → Int) (keyb : β → Int) (g : β → α)
    (hk : ∀ b, key (g b) = keyb b) (l : List β) :
    pySortDesc key (l.map g) = (pySortDesc keyb l).map g := by
  suffices h : ∀ (l : List β) (acc : List β),
      (l.map g).foldl (insDesc key) (acc.map g) = (l.foldl (insDesc keyb) acc).map g by
    simpa using h l []
  intro l
  induction l with
  | nil => intro acc; rfl
  | cons x l ih =>
    intro acc
    simp only [List.map_cons, List.foldl_cons]
    rw [insDesc_map key keyb g hk, ih]

/-- C4 (amended): the absence of the `f` field never errors, but the
default differs by operation: the truncation paths read
`int(x.get("f", 0))` (default 0) while all three index-building paths
read `entry.get("f", 1)` (default 1).  Formally: replacing a missing
`f` by an explicit `0` leaves truncation unchanged, replacing it by an
explicit `1` leaves index building unchanged, and an `f`-less entry is
indexed with frequency 1. -/
theorem claim_C4_frequency_defaults :
    (∀ (data : List RawEntry) (n : Nat),
      TruncateDict.truncate_dictionary
          (data.map (fun e => ⟨e.w, some (e.f.getD 0)⟩)) n
        = (TruncateDict.truncate_dictionary data n).map (fun e => ⟨e.w, some (e.f.getD 0)⟩)) ∧
    (∀ (nf : List Char → List Char) (P : Nat) (data : List RawEntry),
      buildIndex nf P (data.map (fun e => ⟨e.w, some (e.f.getD 1)⟩))
        = buildIndex nf P data) ∧
    (∀ w : List Char, mkIndexEntry ⟨w, none⟩ = ⟨w, 1, 0⟩) ∧
    bucketOf (BackupConvert.convert_to_symspell uniIT [⟨"casa".toList, none⟩] 2 4).normalizedIndex
        "casa".toList
      = [⟨"casa".toList, 1, 0⟩] := by
  refine ⟨?_, ?_, fun w => rfl, by decide⟩
  · intro data n
    unfold TruncateDict.truncate_dictionary
    dsimp only
    have h := @pySortDesc_map RawEntry RawEntry (fun x => x.f.getD 0) (fun x => x.f.getD 0)
      (fun e => (⟨e.w, some (e.f.getD 0)⟩ : RawEntry)) (fun b => rfl) data
    rw [h, List.map_take]
  · intro nf P data
    unfold buildIndex
    rw [List.foldl_map]
    congr 1

/-- C10: when `build_symspell_dict.py` is given input already in
DictionaryIndex shape, the output's `normalizedIndex` is the input's,
unchanged, and the output's `prefixCache` is the input's (defaulting
to the empty map when absent); only `symDeletes` and `symMeta` are
recomputed. -/
theorem claim_C10_frame :
    ∀ (inp : BuildSym.DictInput) (M P : Nat),
      (BuildSym.main (BuildSym.load_input_dict inp) M P).normalizedIndex
        = inp.normalizedIndex ∧
      (BuildSym.main (BuildSym.load_input_dict inp) M P).prefixCache
        = inp.prefixCache.getD [] := by
  intro inp M P
  exact ⟨rfl, rfl⟩

lemma hasVal_map_sort {m : List (List Char × List (List Char))} {S x : List Char}
    (h : hasVal m S x) :
    ∃ vs, lookupKV (m.map (fun kv => (kv.1, pySortStr kv.2))) S = some vs ∧ x ∈ vs := by
  obtain ⟨vs, hl, hv⟩ := h
  refine ⟨pySortStr vs, ?_, mem_pySortStr.2 hv⟩
  rw [lookupKV_map_snd, hl]
  rfl

lemma hasVal_of_map_sort {m : List (List Char × List (List Char))} {S x : List Char}
    {vs : List (List Char)}
    (hl : lookupKV (m.map (fun kv => (kv.1, pySortStr kv.2))) S = some vs)
    (hx : x ∈ vs) : hasVal m S x := by
  rw [lookupKV_map_snd] at hl
  cases hlm : lookupKV m S with
  | none => rw [hlm] at hl; cases hl
  | some vs0 =>
    rw [hlm] at hl
    refine ⟨vs0, hlm, ?_⟩
    have hv : pySortStr vs0 = vs := by injection hl
    rw [← hv] at hx
    exact mem_pySortStr.1 hx

lemma reach_to_gen {K S : List Char} {M P : Nat}
    (h : ∃ k, 1 ≤ k ∧ k ≤ M ∧ DelReach k (K.take P) S) :
    S ∈ BuildSym.generate_deletes (K.take P) M := by
  obtain ⟨k, hk1, hk2, hr⟩ := h
  obtain ⟨hsub, hlen⟩ := (delReach_iff k (K.take P) S).1 hr
  exact (BuildSym.generate_deletes_mem (K.take P) M S).2 ⟨hsub, by omega, by omega⟩

/-- C1: for every key `K` of the built normalizedIndex and every
string `S` reachable from `K`'s prefix `K[0:prefixLength]` by between
1 and `maxEditDistance` deletions, the assembled `symDeletes` contains
`S` as a key, and the value list under `S` contains `K`'s prefix on
the `convert_to_symspell` path and the full key `K` on the
`build_symspell_dict.py` path (the per-path policy). -/
theorem claim_C1_symdeletes_complete :
    (∀ (U : Uni) (data : List RawEntry) (M P : Nat) (K S : List Char),
      K ∈ (BackupConvert.convert_to_symspell U data M P).normalizedIndex.map Prod.fst →
      (∃ k, 1 ≤ k ∧ k ≤ M ∧ DelReach k (K.take P) S) →
      ∃ vs, lookupKV (BackupConvert.convert_to_symspell U data M P).symDeletes S = some vs
        ∧ K.take P ∈ vs) ∧
    (∀ (inp : BuildSym.DictInput) (M P : Nat) (K S : List Char),
      K ∈ (BuildSym.main inp M P).normalizedIndex.map Prod.fst →
      (∃ k, 1 ≤ k ∧ k ≤ M ∧ DelReach k (K.take P) S) →
      ∃ vs, lookupKV (BuildSym.main inp M P).symDeletes S = some vs ∧ K ∈ vs) := by
  constructor
  · intro U data M P K S hK hreach
    exact hasVal_map_sort
      (deletesLoop_complete M P (fun norm => norm.take P) _ K hK S (reach_to_gen hreach))
  · intro inp M P K S hK hreach
    exact hasVal_map_sort
      (deletesLoop_complete M P (fun norm => norm) _ K hK S (reach_to_gen hreach))

/-- Witness for C1 at a concrete input: key "casa", variant "asa"
(one deletion from the prefix "casa"). -/
theorem claim_C1_witness :
    ("casa".toList ∈ (BackupConvert.convert_to_symspell uniIT
        [⟨"casa".toList, some 100⟩] 2 4).normalizedIndex.map Prod.fst) ∧
    (∃ vs, lookupKV (BackupConvert.convert_to_symspell uniIT
        [⟨"casa".toList, some 100⟩] 2 4).symDeletes "asa".toList = some vs ∧
      "casa".toList.take 4 ∈ vs) :=
  ⟨by decide, claim_C1_symdeletes_complete.1 uniIT [⟨"casa".toList, some 100⟩] 2 4
    "casa".toList "asa".toList (by decide)
    ⟨1, Nat.le_refl 1, by omega, "asa".toList, ⟨0, by decide, by decide⟩, rfl⟩⟩

/-- C2 (amended): each build path follows one policy internally —
`convert_to_symspell` only ever stores key prefixes,
`build_symspell_dict.py` only ever stores full normalized keys — but
the two paths differ from each other, and `symMeta` records only
`maxEditDistance` and `prefixLength`, identical on both paths, so the
chosen policy is not recorded. -/
theorem claim_C2_policy_per_path :
    (∀ (U : Uni) (data : List RawEntry) (M P : Nat) (S x : List Char)
      (vs : List (List Char)),
      lookupKV (BackupConvert.convert_to_symspell U data M P).symDeletes S = some vs →
      x ∈ vs →
      ∃ K ∈ (BackupConvert.convert_to_symspell U data M P).normalizedIndex.map Prod.fst,
        x = K.take P) ∧
    (∀ (inp : BuildSym.DictInput) (M P : Nat) (S x : List Char)
      (vs : List (List Char)),
      lookupKV (BuildSym.main inp M P).symDeletes S = some vs → x ∈ vs →
      x ∈ inp.normalizedIndex.map Prod.fst) ∧
    (∀ (U : Uni) (data : List RawEntry) (M P : Nat) (inp : BuildSym.DictInput),
      (BackupConvert.convert_to_symspell U data M P).symMeta
        = (BuildSym.main inp M P).symMeta ∧
      (BackupConvert.convert_to_symspell U data M P).symMeta = ⟨M, P⟩) := by
  refine ⟨?_, ?_, fun U data M P inp => ⟨rfl, rfl⟩⟩
  · intro U data M P S x vs hl hx
    exact deletesLoop_sound M P (fun norm => norm.take P) _ S x (hasVal_of_map_sort hl hx)
  · intro inp M P S x vs hl hx
    obtain ⟨K, hK, hxK⟩ :=
      deletesLoop_sound M P (fun norm => norm) _ S x (hasVal_of_map_sort hl hx)
    rw [hxK]
    exact hK

/-- Counterexample to C2 as stated: the same raw input, put through
the two build paths, stores the prefix "cast" on one path and the
full key "castello" on the other under the same delete variant
"cas", while symMeta is identical on both paths — the policies are
mixed across build paths and symMeta does not record the choice. -/
theorem claim_C2_counterexample :
    lookupKV (BackupConvert.convert_to_symspell uniIT
        [⟨"castello".toList, some 5⟩] 1 4).symDeletes "cas".toList
      = some ["cast".toList] ∧
    lookupKV (BuildSym.main (BuildSym.load_input_list uniIT
        [⟨"castello".toList, some 5⟩]) 1 4).symDeletes "cas".toList
      = some ["castello".toList] ∧
    (BackupConvert.convert_to_symspell uniIT [⟨"castello".toList, some 5⟩] 1 4).symMeta
      = (BuildSym.main (BuildSym.load_input_list uniIT
          [⟨"castello".toList, some 5⟩]) 1 4).symMeta ∧
    ("cast".toList : List Char) ≠ "castello".toList := by
  decide

/-- Witness for C2 at a concrete input. -/
theorem claim_C2_witness :
    ∃ K ∈ (BackupConvert.convert_to_symspell uniIT
        [⟨"castello".toList, some 5⟩] 1 4).normalizedIndex.map Prod.fst,
      "cast".toList = K.take 4 :=
  claim_C2_policy_per_path.1 uniIT [⟨"castello".toList, some 5⟩] 1 4
    "cas".toList "cast".toList ["cast".toList] (by decide) (by decide)

/-! ## Batch drivers -/

namespace ConvertAll

/-- The per-language body of the batch loop of
`convert_all_to_symspell.py` (lines 51-88).  `run lang` models the
`subprocess.run` of `build_symspell_dict.py` for that language:
`.ok rc` is a completed subprocess with return code `rc`, `.error e`
an exception caught by the `except` clause.  Return code 0 counts as
a success; any other outcome appends the language to `failed`. -/
def batchStep (run : List Char → Except (List Char) Int)
    (acc : Nat × List (List Char)) (lang : List Char) : Nat × List (List Char) :=
  match run lang with
  | .ok rc => if rc = 0 then (acc.1 + 1, acc.2) else (acc.1, acc.2 ++ [lang])
  | .error _e => (acc.1, acc.2 ++ [lang])

/-- `main` from `convert_all_to_symspell.py` (lines 25-97): every
language is processed; the driver returns
`(success_count, failed, exit code)` with exit code
`0 if not failed else 1` (line 97). -/
def main (langs : List (List Char)) (run : List Char → Except (List Char) Int) :
    Nat × List (List Char) × Int :=
  let counts := langs.foldl (batchStep run) (0, [])
  (counts.1, counts.2, if counts.2 = [] then 0 else 1)

/-- Whether a language converts successfully (return code 0). -/
def okZero (run : List Char → Except (List Char) Int) (l : List Char) : Bool :=
  match run l with
  | .ok rc => rc == 0
  | .error _e => false

lemma batch_fold_char (run : List Char → Except (List Char) Int) :
    ∀ (langs : List (List Char)) (acc : Nat × List (List Char)),
      (langs.foldl (batchStep run) acc).1
          = acc.1 + (langs.filter (okZero run)).length ∧
      (langs.foldl (batchStep run) acc).2
          = acc.2 ++ langs.filter (fun l => !(okZero run l)) := by
  intro langs
  induction langs with
  | nil => intro acc; simp
  | cons l langs ih =>
    intro acc
    simp only [List.foldl_cons]
    obtain ⟨ih1, ih2⟩ := ih (batchStep run acc l)
    have hstep : batchStep run acc l
        = if okZero run l then (acc.1 + 1, acc.2) else (acc.1, acc.2 ++ [l]) := by
      unfold batchStep okZero
      cases run l with
      | ok rc =>
        by_cases h : rc = 0 <;> simp [h]
      | error e => simp
    constructor
    · rw [ih1, hstep, List.filter_cons]
      by_cases h : okZero run l
      · simp [h]
        omega
      · simp [h]
    · rw [ih2, hstep, List.filter_cons]
      by_cases h : okZero run l <;> simp [h]

end ConvertAll

namespace BackupConvert

/-- `process_dictionaries` from `backup_truncate_and_convert.py`
(lines 138-183): iterate the languages; each is truncated, written
back and converted inside a `try` (`run lang`, `.error` modelling an
exception); on the first exception the function prints and
`return False` (line 180), abandoning the remaining languages; after
a full loop it returns `True`.  The first component traces the
languages actually attempted. -/
def process_dictionaries (run : List Char → Except (List Char) Unit) :
    List (List Char) → List (List Char) → List (List Char) × Bool
  | [], done => (done, true)
  | l :: rest, done =>
      match run l with
      | .ok _u => process_dictionaries run rest (done ++ [l])
      | .error _e => (done ++ [l], false)

lemma process_dictionaries_flag (run : List Char → Except (List Char) Unit) :
    ∀ (langs done : List (List Char)),
      (process_dictionaries run langs done).2 = true ↔
        ∀ l ∈ langs, ∃ u, run l = .ok u := by
  intro langs
  induction langs with
  | nil =>
    intro done
    simp [process_dictionaries]
  | cons l rest ih =>
    intro done
    unfold process_dictionaries
    cases hr : run l with
    | ok u =>
      dsimp only
      rw [ih (done ++ [l])]
      constructor
      · intro h x hx
        rcases List.mem_cons.1 hx with rfl | hx'
        · exact ⟨u, hr⟩
        · exact h x hx'
      · intro h x hx
        exact h x (List.mem_cons_of_mem _ hx)
    | error e =>
      dsimp only
      constructor
      · intro h
        exact Bool.noConfusion h
      · intro h
        obtain ⟨u, hu⟩ := h l (List.mem_cons_self l rest)
        rw [hr] at hu
        cases hu

lemma process_dictionaries_early (run : List Char → Except (List Char) Unit) :
    ∀ (pre : List (List Char)) (l : List Char) (post done : List (List Char)),
      (∀ x ∈ pre, ∃ u, run x = .ok u) →
      (∀ u, run l ≠ .ok u) →
      process_dictionaries run (pre ++ l :: post) done = (done ++ pre ++ [l], false) := by
  intro pre
  induction pre with
  | nil =>
    intro l post done _ hl
    simp only [List.nil_append]
    unfold process_dictionaries
    cases hr : run l with
    | ok u => exact absurd hr (hl u)
    | error e => simp
  | cons x pre ih =>
    intro l post done hpre hl
    simp only [List.cons_append]
    unfold process_dictionaries
    obtain ⟨u, hu⟩ := hpre x (List.mem_cons_self x pre)
    rw [hu]
    rw [ih l post (done ++ [x]) (fun y hy => hpre y (List.mem_cons_of_mem _ hy)) hl]
    simp

end BackupConvert

/-- C5 (amended): the batch driver `convert_all_to_symspell.py`
satisfies the claim — every language is processed regardless of other
languages' failures, per-language outcomes are aggregated into
`(success_count, failed)`, and the exit code is 0 exactly when every
language succeeds.  `process_dictionaries` of
`backup_truncate_and_convert.py` does NOT: it succeeds only when all
languages do, and on the first failing language it returns
immediately, so the languages after the failure are never attempted. -/
theorem claim_C5_batch_behavior :
    (∀ (langs : List (List Char)) (run : List Char → Except (List Char) Int),
      (ConvertAll.main langs run).1
          = (langs.filter (ConvertAll.okZero run)).length ∧
      (ConvertAll.main langs run).2.1
          = langs.filter (fun l => !(ConvertAll.okZero run l)) ∧
      ((ConvertAll.main langs run).2.2 = 0 ↔
        ∀ l ∈ langs, ConvertAll.okZero run l = true)) ∧
    (∀ (run : List Char → Except (List Char) Unit) (langs : List (List Char)),
      ((BackupConvert.process_dictionaries run langs []).2 = true ↔
        ∀ l ∈ langs, ∃ u, run l = .ok u) ∧
      (∀ pre l post, langs = pre ++ l :: post →
        (∀ x ∈ pre, ∃ u, run x = .ok u) →
        (∀ u, run l ≠ .ok u) →
        BackupConvert.process_dictionaries run langs [] = (pre ++ [l], false))) := by
  constructor
  · intro langs run
    obtain ⟨h1, h2⟩ := ConvertAll.batch_fold_char run langs (0, [])
    refine ⟨by simpa using h1, by simpa using h2, ?_⟩
    unfold ConvertAll.main
    dsimp only
    rw [h2]
    simp only [List.nil_append]
    constructor
    · intro h
      have hnil : langs.filter (fun l => !(ConvertAll.okZero run l)) = [] := by
        by_contra hne
        rw [if_neg hne] at h
        cases h
      intro l hl
      by_contra hbad
      have : l ∈ langs.filter (fun l => !(ConvertAll.okZero run l)) := by
        refine List.mem_filter.2 ⟨hl, ?_⟩
        simp [hbad]
      rw [hnil] at this
      cases this
    · intro h
      have hnil : langs.filter (fun l => !(ConvertAll.okZero run l)) = [] := by
        rw [List.filter_eq_nil_iff]
        intro l hl
        simp [h l hl]
      rw [if_pos hnil]
  · intro run langs
    refine ⟨BackupConvert.process_dictionaries_flag run langs [], ?_⟩
    rintro pre l post rfl hpre hl
    simpa using BackupConvert.process_dictionaries_early run pre l post [] hpre hl

/-- The concrete failing batch for C5: the first language raises, the
second would succeed. -/
def cexRun : List Char → Except (List Char) Unit :=
  fun l => if l = "aa".toList then .error "boom".toList else .ok ()

/-- Counterexample to C5 as stated: in
`backup_truncate_and_convert.py`, after the failure of language "aa"
the remaining language "bb" is never processed — the batch stops with
only ["aa"] attempted. -/
theorem claim_C5_counterexample :
    BackupConvert.process_dictionaries cexRun ["aa".toList, "bb".toList] []
        = (["aa".toList], false) ∧
    "bb".toList ∉ (BackupConvert.process_dictionaries cexRun
        ["aa".toList, "bb".toList] []).1 := by
  decide

/-- Witness for C5 at a concrete input. -/
theorem claim_C5_witness :
    BackupConvert.process_dictionaries cexRun ["aa".toList, "bb".toList] []
      = ([] ++ ["aa".toList], false) :=
  (claim_C5_batch_behavior.2 cexRun ["aa".toList, "bb".toList]).2
    [] "aa".toList ["bb".toList] rfl (by simp)
    (by intro u h; cases u; simp [cexRun] at h)
